import Mathlib

set_option linter.unusedSectionVars false

/-!
Verification of the SLIM recommender core and the ratings-splitting utility.

The development shallowly embeds two modules:

* `reclab/recommenders/slim.py` — the `SLIM` class.  Rating and weight
  matrices are total functions on `Fin` index ranges with entries in an
  arbitrary commutative ring `α` (the Python code computes with floats;
  every property verified here is structural and holds over any ring).
  The external elastic-net solver (`self.model.fit` followed by reading
  `self.model.sparse_coef_`) is modelled as an oracle parameter returning
  `Option` — `none` models the solver raising an exception.  The per-item
  training loop is embedded in the `Except` monad so that the exact state
  at the point of a raised exception is observable.

* `reclab/data_utils.py` — `split_ratings`.  A Python dict with its
  insertion order is embedded as an association list; `np.random.shuffle`
  is an explicit permutation parameter; `int(proportion * len(ratings))`
  is `Rat.floor` composed with `Int.toNat` (for the in-contract range
  `0 ≤ proportion` the Python `int` truncation agrees with the floor).
-/

namespace RecLab

/-- A dense view of a `rows × cols` matrix: entry lookup by index pair.
Sparse formats (`csc`, `dok`, `csr`) differ only in storage; the embedding
works with the entry map, which is what every claim is about. -/
abbrev Mat (α : Type) (rows cols : Nat) := Fin rows → Fin cols → α

/-- A column vector of length `rows`. -/
abbrev Col (α : Type) (rows : Nat) := Fin rows → α

variable {α : Type} [CommRing α] {m n : Nat}

/-- Column slice `M[:, i]` (as `target = ratings[:, item_id].toarray()` takes a
dense copy of one column). -/
def getCol (M : Mat α m n) (i : Fin n) : Col α m := fun u => M u i

/-- Column assignment `M[:, i] = c` (as in `ratings[:, item_id] = 0`,
`ratings[:, item_id] = target` and `self._weights[:, item_id] = ...`). -/
def setCol (M : Mat α m n) (i : Fin n) (c : Col α m) : Mat α m n :=
  fun u j => if j = i then c u else M u j

/-- Single-entry assignment `M[a, b] = x` (as in `self._weights[item_id, item_id] = 0`). -/
def setEntry (M : Mat α n n) (a b : Fin n) (x : α) : Mat α n n :=
  fun j k => if j = a ∧ k = b then x else M j k

/-- The regression solver of the `SLIM` class (`self.model`, an `ElasticNet`
configured in `__init__` with a fixed integer seed, hence a fixed function of
its inputs).  Given the design matrix and a target column it returns the
fitted coefficient vector (`sparse_coef_`), or `none` when `fit` raises. -/
abbrev Oracle (α : Type) (m n : Nat) := Mat α m n → Col α m → Option (Col α n)

/-- The mutable state of a `SLIM` instance touched by `update`: the rating
matrix `ratings = self._ratings.tocsc()` that the loop mutates column by
column, and the weight matrix `self._weights`. -/
structure SLIMState (α : Type) (m n : Nat) where
  R : Mat α m n
  W : Mat α n n

/-- Equality test for `SLIMState`, used only to evaluate the embedding on
concrete inputs.  Written without equality transport so that it reduces
inside the kernel. -/
instance slimStateDecEq {α : Type} {m n : Nat} [DecidableEq α] :
    DecidableEq (SLIMState α m n) := fun a b =>
  match decEq a.R b.R with
  | .isTrue hR =>
      match decEq a.W b.W with
      | .isTrue hW => .isTrue (by cases a; cases b; cases hR; cases hW; rfl)
      | .isFalse hW => .isFalse (fun hc => hW (by rw [hc]))
  | .isFalse hR => .isFalse (fun hc => hR (by rw [hc]))

namespace SLIM

/-- One iteration of the training loop of `SLIM.update` (slim.py lines 55-64):
take a dense copy `target` of column `item_id`, zero that column of the rating
matrix, fit, write the coefficients into column `item_id` of the weight matrix,
force the diagonal entry to zero, and restore the rating column.  When the
solver raises (`none`), the exception propagates: the `Except.error` payload is
the state at that moment — column `item_id` still zeroed, column not restored. -/
def updateStep (oracle : Oracle α m n) (s : SLIMState α m n) (item_id : Fin n) :
    Except (SLIMState α m n) (SLIMState α m n) :=
  match oracle (setCol s.R item_id (fun _ => 0)) (getCol s.R item_id) with
  | none =>
      .error ⟨setCol s.R item_id (fun _ => 0), s.W⟩
  | some coef =>
      .ok ⟨setCol (setCol s.R item_id (fun _ => 0)) item_id (getCol s.R item_id),
           setEntry (setCol s.W item_id coef) item_id item_id 0⟩

/-- The training loop `for item_id in range(num_items)`, sequenced over an
explicit list of item indices; an exception in any iteration aborts the loop. -/
def updateLoop (oracle : Oracle α m n) :
    List (Fin n) → SLIMState α m n → Except (SLIMState α m n) (SLIMState α m n)
  | [], s => .ok s
  | i :: rest, s =>
      match updateStep oracle s i with
      | .error e => .error e
      | .ok s1 => updateLoop oracle rest s1

/-- `SLIM.update` (slim.py lines 50-65): initialise `self._weights` to the empty
(all-zero) `num_items × num_items` matrix, then run the per-item loop over
`range(num_items)` in increasing order.  The final `tocsr()` conversion changes
only the storage format, not the entries, and is the identity here. -/
def update (oracle : Oracle α m n) (ratings : Mat α m n) :
    Except (SLIMState α m n) (SLIMState α m n) :=
  updateLoop oracle (List.finRange n) ⟨ratings, fun _ _ => 0⟩

end SLIM

/-- Restoring a column from a previously saved copy undoes the column write. -/
lemma setCol_restore (M : Mat α m n) (i : Fin n) (c : Col α m) :
    setCol (setCol M i c) i (getCol M i) = M := by
  funext u j
  by_cases h : j = i <;> simp [setCol, getCol, h]

namespace SLIM

/-- A successful iteration leaves the rating matrix exactly as it found it. -/
lemma updateStep_ok_R {oracle : Oracle α m n} {s s1 : SLIMState α m n} {i : Fin n}
    (h : updateStep oracle s i = .ok s1) : s1.R = s.R := by
  unfold updateStep at h
  split at h
  · cases h
  · cases h
    exact setCol_restore s.R i (fun _ => 0)

/-- A successful loop leaves the rating matrix exactly as it found it. -/
lemma updateLoop_ok_R {oracle : Oracle α m n} {s s1 : SLIMState α m n} :
    ∀ {l : List (Fin n)}, updateLoop oracle l s = .ok s1 → s1.R = s.R := by
  intro l
  induction l generalizing s with
  | nil => intro h; cases h; rfl
  | cons i rest ih =>
      intro h
      unfold updateLoop at h
      split at h
      · cases h
      · rename_i s2 hstep
        exact (ih h).trans (updateStep_ok_R hstep)

/-- A successful iteration for item `i` zeroes the diagonal entry `(i, i)`. -/
lemma updateStep_ok_diag_self {oracle : Oracle α m n} {s s1 : SLIMState α m n} {i : Fin n}
    (h : updateStep oracle s i = .ok s1) : s1.W i i = 0 := by
  unfold updateStep at h
  split at h
  · cases h
  · cases h
    simp [setEntry]

/-- An iteration for item `i` never disturbs a diagonal entry that is
already zero: entries outside column `i` are untouched, and `(i, i)` is
explicitly set to zero. -/
lemma updateStep_ok_diag_mono {oracle : Oracle α m n} {s s1 : SLIMState α m n} {i j : Fin n}
    (h : updateStep oracle s i = .ok s1) (hz : s.W j j = 0) : s1.W j j = 0 := by
  unfold updateStep at h
  split at h
  · cases h
  · cases h
    by_cases hji : j = i
    · subst hji; simp [setEntry]
    · simp [setEntry, setCol, hji, hz]

/-- Zero diagonal entries survive the rest of the loop. -/
lemma updateLoop_ok_diag_mono {oracle : Oracle α m n} {s s1 : SLIMState α m n} {j : Fin n} :
    ∀ {l : List (Fin n)}, updateLoop oracle l s = .ok s1 → s.W j j = 0 → s1.W j j = 0 := by
  intro l
  induction l generalizing s with
  | nil => intro h hz; cases h; exact hz
  | cons i rest ih =>
      intro h hz
      unfold updateLoop at h
      split at h
      · cases h
      · rename_i s2 hstep
        exact ih h (updateStep_ok_diag_mono hstep hz)

/-- Every item visited by a successful loop ends with a zero diagonal entry. -/
lemma updateLoop_ok_diag {oracle : Oracle α m n} {s s1 : SLIMState α m n} {j : Fin n} :
    ∀ {l : List (Fin n)}, updateLoop oracle l s = .ok s1 → j ∈ l → s1.W j j = 0 := by
  intro l
  induction l generalizing s with
  | nil => intro _ hmem; cases hmem
  | cons i rest ih =>
      intro h hmem
      unfold updateLoop at h
      split at h
      · cases h
      · rename_i s2 hstep
        rcases List.mem_cons.mp hmem with hji | hjr
        · subst hji
          exact updateLoop_ok_diag_mono h (updateStep_ok_diag_self hstep)
        · exact ih h hjr

end SLIM

/-- Equality test for `Except` results, used only to evaluate the embedding on
concrete inputs. -/
instance {ε β : Type} [DecidableEq ε] [DecidableEq β] : DecidableEq (Except ε β)
  | .ok a, .ok b =>
      match decEq a b with
      | .isTrue h => .isTrue (congrArg Except.ok h)
      | .isFalse h => .isFalse (fun hc => h (Except.ok.inj hc))
  | .ok _, .error _ => .isFalse (fun hc => Except.noConfusion hc)
  | .error _, .ok _ => .isFalse (fun hc => Except.noConfusion hc)
  | .error a, .error b =>
      match decEq a b with
      | .isTrue h => .isTrue (congrArg Except.error h)
      | .isFalse h => .isFalse (fun hc => h (Except.error.inj hc))

namespace SLIM

/-- A solver that always converges, as a total function from design matrix and
target to coefficient vector (the Oracle contract of spec §6 requires the
solver never to raise, returning its best iterate instead). -/
def totalize (fit : Mat α m n → Col α m → Col α n) : Oracle α m n :=
  fun X y => some (fit X y)

/-- Modelled from the spec (§3, §4.2 steps a-d): the coefficient vector of the
regression whose target is column `i` of the rating matrix and whose predictor
matrix is the rating matrix with column `i` zeroed out — the leave-one-out fit
for item `i`. -/
def fitColumnSpec (fit : Mat α m n → Col α m → Col α n) (R : Mat α m n) (i : Fin n) :
    Col α n :=
  fit (setCol R i (fun _ => 0)) (getCol R i)

/-- Modelled from the spec (§3, §4.2 step d): the weight matrix whose column
`i` is the leave-one-out coefficient vector for item `i`, with the diagonal
forced to zero. -/
def trainedWeightsSpec (fit : Mat α m n → Col α m → Col α n) (R : Mat α m n) :
    Mat α n n :=
  fun j i => if j = i then 0 else fitColumnSpec fit R i j

/-- Closed form of the training loop with a never-failing solver: the rating
matrix comes back unchanged and each visited column of the weight matrix holds
the leave-one-out fit (diagonal forced to zero), computed from the original
rating matrix — each iteration restores the column it zeroed before the next
iteration begins. -/
lemma updateLoop_total_closed (fit : Mat α m n → Col α m → Col α n) (R : Mat α m n) :
    ∀ (l : List (Fin n)) (W : Mat α n n),
      updateLoop (totalize fit) l ⟨R, W⟩ =
        .ok ⟨R, fun j k => if k ∈ l then trainedWeightsSpec fit R j k else W j k⟩ := by
  intro l
  induction l with
  | nil =>
      intro W
      have hW : (fun j k => if k ∈ ([] : List (Fin n)) then trainedWeightsSpec fit R j k
          else W j k) = W := by
        funext j k; simp
      rw [hW]
      rfl
  | cons i rest ih =>
      intro W
      have hstep : updateLoop (totalize fit) (i :: rest) ⟨R, W⟩ =
          updateLoop (totalize fit) rest
            ⟨setCol (setCol R i (fun _ => 0)) i (getCol R i),
             setEntry (setCol W i (fitColumnSpec fit R i)) i i 0⟩ := rfl
      rw [hstep, setCol_restore, ih]
      have hW : (fun j k => if k ∈ rest then trainedWeightsSpec fit R j k
            else setEntry (setCol W i (fitColumnSpec fit R i)) i i 0 j k) =
          (fun j k => if k ∈ i :: rest then trainedWeightsSpec fit R j k else W j k) := by
        funext j k
        by_cases hkr : k ∈ rest
        · simp [hkr]
        · by_cases hki : k = i
          · subst hki
            by_cases hjk : j = k <;>
              simp [hkr, hjk, setEntry, setCol, trainedWeightsSpec]
          · simp [hkr, hki, setEntry, setCol, Ne.symm hki]
      rw [hW]

/-- The sparse product `self._ratings @ self._weights` computed by `_predict`
for the whole batch before any pair is looked up. -/
def matProd (R : Mat α m n) (W : Mat α n n) : Mat α m n :=
  fun u i => ∑ j, R u j * W j i

/-- Row slice `M[u, :]`. -/
def getRow (M : Mat α m n) (u : Fin m) : Fin n → α := fun j => M u j

/-- Dot product of two vectors of length `n`. -/
def rowColDot (v w : Fin n → α) : α := ∑ j, v j * w j

/-- `SLIM._predict` (slim.py lines 67-74): compute `all_predictions` — the
product of the rating matrix with the weight matrix — once, then walk the
query list `user_item` (whose elements pair a `(user_id, item_id)` tuple
with an ignored context) appending one looked-up entry per query. -/
def _predict {C : Type} (ratings : Mat α m n) (weights : Mat α n n)
    (user_item : List ((Fin m × Fin n) × C)) : List α :=
  let all_predictions := matProd ratings weights
  user_item.map (fun q => all_predictions q.1.1 q.1.2)

/-- Concrete 2-user, 2-item rating matrix used to evaluate the embedding. -/
def exRatings : Mat ℤ 2 2 := fun u i => if u = i then 3 else 1

/-- Concrete never-failing solver returning the constant coefficient vector 7. -/
def exOracle : Oracle ℤ 2 2 := fun _ _ => some (fun _ => 7)

/-- The state `update exOracle exRatings` reaches: ratings restored, weights 7
off the diagonal and 0 on it. -/
def exState : SLIMState ℤ 2 2 :=
  ⟨exRatings, fun j k => if j = k then 0 else 7⟩

/-- C1: after every completed call to `update`, the stored weight matrix has
shape `num_items × num_items` — its type is `Mat α n n`, built from
`scipy.sparse.dok_matrix((num_items, num_items))` — and every diagonal entry
`W[i, i]` is zero. -/
theorem update_weight_matrix_invariant (oracle : Oracle α m n) (ratings : Mat α m n)
    (s : SLIMState α m n) (h : update oracle ratings = .ok s) :
    ∀ item_id : Fin n, s.W item_id item_id = 0 :=
  fun item_id => updateLoop_ok_diag h (List.mem_finRange item_id)

/-- Witness for C1: the concrete 2×2 training run completes and both diagonal
entries of the resulting weight matrix are zero. -/
theorem update_weight_matrix_invariant_witness :
    update exOracle exRatings = .ok exState ∧
    exState.W 0 0 = 0 ∧ exState.W 1 1 = 0 :=
  ⟨by decide,
   update_weight_matrix_invariant exOracle exRatings exState (by decide) 0,
   update_weight_matrix_invariant exOracle exRatings exState (by decide) 1⟩

/-- C2: a completed call to `update` leaves the rating matrix element-wise
identical to its state before the call: every column is zeroed and then
restored from the dense copy saved as `target`. -/
theorem update_preserves_rating_matrix (oracle : Oracle α m n) (ratings : Mat α m n)
    (s : SLIMState α m n) (h : update oracle ratings = .ok s) :
    ∀ (u : Fin m) (i : Fin n), s.R u i = ratings u i :=
  fun u i => congrFun (congrFun (updateLoop_ok_R h) u) i

/-- Witness for C2: the concrete 2×2 training run completes and the rating
matrix entries afterwards equal the original entries. -/
theorem update_preserves_rating_matrix_witness :
    update exOracle exRatings = .ok exState ∧
    exState.R 0 1 = exRatings 0 1 ∧ exState.R 1 0 = exRatings 1 0 :=
  ⟨by decide,
   update_preserves_rating_matrix exOracle exRatings exState (by decide) 0 1,
   update_preserves_rating_matrix exOracle exRatings exState (by decide) 1 0⟩

/-- C3: `update` with a never-failing solver performs, for each item index in
increasing order (the loop runs over `List.finRange n = [0, …, n-1]`), exactly
the leave-one-out step the spec describes: the final state carries the rating
matrix unchanged — each column was zeroed and then restored from the saved
dense copy before the next item — and a weight matrix whose column `i` is the
solver's coefficient vector for target = column `i` of the original rating
matrix against the original rating matrix with column `i` zeroed, with the
diagonal entry forced to zero (`trainedWeightsSpec`, written from the spec's
words, to be compared with `update`, written from the source). -/
theorem update_follows_leave_one_out_loop (fit : Mat α m n → Col α m → Col α n)
    (ratings : Mat α m n) :
    update (totalize fit) ratings = .ok ⟨ratings, trainedWeightsSpec fit ratings⟩ := by
  have h := updateLoop_total_closed fit ratings (List.finRange n) (fun _ _ => 0)
  have hW : (fun j k => if k ∈ List.finRange n then trainedWeightsSpec fit ratings j k
      else (0 : α)) = trainedWeightsSpec fit ratings := by
    funext j k
    simp [List.mem_finRange]
  rw [update, h, hW]

/-- C4: the value returned for every queried pair `(u, i)` is the `(u, i)`
entry of the product of the rating matrix with the weight matrix, which is
the dot product of row `u` of the rating matrix with column `i` of the weight
matrix; `_predict` computes the product (`matProd`, the embedding of
`all_predictions = self._ratings @ self._weights`) once, independently of the
query list, and only looks entries up per pair. -/
theorem predict_is_batched_product {C : Type} (ratings : Mat α m n) (weights : Mat α n n)
    (user_item : List ((Fin m × Fin n) × C)) :
    _predict ratings weights user_item =
      user_item.map (fun q => rowColDot (getRow ratings q.1.1) (getCol weights q.1.2)) ∧
    (∀ (u : Fin m) (i : Fin n),
      matProd ratings weights u i = rowColDot (getRow ratings u) (getCol weights i)) :=
  ⟨rfl, fun _ _ => rfl⟩

/-- C7: the prediction list is as long as the query list, and its `k`-th
element is the prediction for the `k`-th queried pair — out-of-range indices
yield `none` on both sides. -/
theorem predict_length_and_order {C : Type} (ratings : Mat α m n) (weights : Mat α n n)
    (user_item : List ((Fin m × Fin n) × C)) :
    (_predict ratings weights user_item).length = user_item.length ∧
    ∀ k : Nat, (_predict ratings weights user_item)[k]? =
      (user_item[k]?).map (fun q => matProd ratings weights q.1.1 q.1.2) := by
  constructor
  · simp [_predict]
  · intro k
    simp [_predict]

/-- Concrete 1-user, 1-item rating matrix holding the single rating 2. -/
def failRatings : Mat ℤ 1 1 := fun _ _ => 2

/-- A solver that raises on every call. -/
def failOracle : Oracle ℤ 1 1 := fun _ _ => none

/-- The state at the moment the solver raises on `failRatings`: the rating
column is still zeroed and the weight matrix is still the initial all-zero
matrix. -/
def failState : SLIMState ℤ 1 1 := ⟨fun _ _ => 0, fun _ _ => 0⟩

/-- C5 (code bug): when the solver raises mid-loop, `update` propagates the
exception without restoring the zeroed column — the `ratings[:, item_id] = target`
statement is only on the success path, with no try/finally.  On the 1×1 rating
matrix `[[2]]` with a solver that raises at item 0, the loop exits with the
rating column still zeroed (the error state holds `0` where the matrix held
`2`), contradicting the spec's requirement of restoration on all exit paths. -/
theorem update_failure_leaves_column_zeroed :
    update failOracle failRatings = .error failState ∧
    failState.R 0 0 = 0 ∧ failRatings 0 0 = 2 :=
  ⟨by decide, by decide, by decide⟩

/-- C8: two successive calls to `update` — the second consuming the rating
matrix the first call left behind — with the same solver (the `ElasticNet`
is configured once in `__init__` with a fixed integer seed, so both calls
fit with the same function) produce the same weight matrix; in particular
both satisfy the zero-diagonal invariant and have identical zero/nonzero
(sparsity) patterns. -/
theorem update_idempotent_same_seed (oracle : Oracle α m n) (ratings : Mat α m n)
    (s1 s2 : SLIMState α m n)
    (h1 : update oracle ratings = .ok s1)
    (h2 : update oracle s1.R = .ok s2) :
    s2.W = s1.W ∧ (∀ i, s1.W i i = 0) ∧ (∀ j k, s1.W j k = 0 ↔ s2.W j k = 0) := by
  have hR : s1.R = ratings := updateLoop_ok_R h1
  rw [hR, h1] at h2
  have hs : s2 = s1 := (Except.ok.inj h2).symm
  subst hs
  exact ⟨rfl, fun i => updateLoop_ok_diag h1 (List.mem_finRange i), fun j k => Iff.rfl⟩

/-- Witness for C8: both concrete training runs complete with the same state
and the diagonal is zero. -/
theorem update_idempotent_same_seed_witness :
    update exOracle exRatings = .ok exState ∧
    update exOracle exState.R = .ok exState ∧
    exState.W 0 0 = 0 :=
  ⟨by decide, by decide,
   (update_idempotent_same_seed exOracle exRatings exState exState
      (by decide) (by decide)).2.1 0⟩

end SLIM

namespace DataUtils

/-- A Python `dict`/`OrderedDict` with its insertion order: the list of its
`(key, value)` entries in that order.  A dict never holds a key twice; where a
claim needs this, it is the `Nodup` hypothesis on the mapped keys. -/
abbrev Entries (K V : Type) := List (K × V)

variable {K V : Type}

/-- The loop `for i, (key, val) in enumerate(iterator)` of `split_ratings`
(data_utils.py lines 42-46), started at index `i`: entries with index below
`split_1_end` go to the first group, the rest to the second, each group in
iteration order. -/
def splitLoop (split_1_end : Nat) : Nat → Entries K V → Entries K V × Entries K V
  | _, [] => ([], [])
  | i, kv :: rest =>
      let p := splitLoop split_1_end (i + 1) rest
      if i < split_1_end then (kv :: p.1, p.2) else (p.1, kv :: p.2)

/-- `split_ratings` (data_utils.py lines 14-48).  `proportion` is the real
number the Python float stands for; `int(proportion * len(ratings))` is the
floor for in-contract (non-negative) products, and both sides treat a negative
product the same way (an always-false index bound).  `np.random.shuffle` is
modelled by the permutation `shuffler` applied to `iterator`, the list copied
out of the dict — shuffling happens only when `shuffle` is true. -/
def split_ratings (shuffler : Entries K V → Entries K V)
    (ratings : Entries K V) (proportion : ℚ) (shuffle : Bool) :
    Entries K V × Entries K V :=
  let split_1_end : Nat := (proportion * (ratings.length : ℚ)).floor.toNat
  let iterator : Entries K V := ratings
  let iterator : Entries K V := if shuffle then shuffler iterator else iterator
  splitLoop split_1_end 0 iterator

/-- State-passing embedding of a call `split_ratings(ratings, proportion,
shuffle)`: the first component is the returned pair, the second the contents
of the caller's `ratings` dict after the call.  The body reads the dict only
through `len(ratings)` and `list(ratings.items())`; the latter copies the
entries into the fresh local list `iterator`, and `np.random.shuffle` permutes
only that local list, so the dict's entries, values and order are returned
as they came in. -/
def split_ratings_call (shuffler : Entries K V → Entries K V)
    (ratings : Entries K V) (proportion : ℚ) (shuffle : Bool) :
    (Entries K V × Entries K V) × Entries K V :=
  let split_1_end : Nat := (proportion * (ratings.length : ℚ)).floor.toNat
  let iterator : Entries K V := ratings
  let iterator : Entries K V := if shuffle then shuffler iterator else iterator
  (splitLoop split_1_end 0 iterator, ratings)

/-- `Rat.floor` agrees with the floor of the ordered-field structure. -/
lemma ratFloor_eq (q : ℚ) : q.floor = ⌊q⌋ := by
  rw [Rat.floor_def', Rat.floor_def]

/-- For a proportion at most `1` the first-group size never exceeds the
number of entries. -/
lemma floor_mul_le {p : ℚ} (len : Nat) (h1 : p ≤ 1) :
    (p * (len : ℚ)).floor.toNat ≤ len := by
  rw [ratFloor_eq]
  have hle : (p * (len : ℚ)) ≤ (len : ℚ) := by
    nlinarith [show (0:ℚ) ≤ (len : ℚ) from Nat.cast_nonneg len]
  have h2 := Int.floor_le_floor hle
  rw [Int.floor_natCast] at h2
  omega

/-- The indexed loop splits the iterated list at `split_1_end - i`. -/
lemma splitLoop_eq_take_drop (e : Nat) :
    ∀ (l : Entries K V) (i : Nat),
      splitLoop e i l = (l.take (e - i), l.drop (e - i)) := by
  intro l
  induction l with
  | nil => intro i; simp [splitLoop]
  | cons kv rest ih =>
      intro i
      unfold splitLoop
      rw [ih (i + 1)]
      by_cases h : i < e
      · have h1 : e - i = (e - (i + 1)) + 1 := by omega
        simp [h, h1]
      · have h0 : e - i = 0 := by omega
        have h1 : e - (i + 1) = 0 := by omega
        simp [h, h0, h1]

/-- With `shuffle=False` the call reduces to taking and dropping the prefix of
the given length, in the order the entries came in. -/
lemma split_ratings_false_eq (shuffler : Entries K V → Entries K V)
    (ratings : Entries K V) (proportion : ℚ) :
    split_ratings shuffler ratings proportion false =
      (ratings.take (proportion * (ratings.length : ℚ)).floor.toNat,
       ratings.drop (proportion * (ratings.length : ℚ)).floor.toNat) := by
  show splitLoop _ 0 ratings = _
  rw [splitLoop_eq_take_drop, Nat.sub_zero]

/-- With the shuffled iterator the call reduces to taking and dropping the
prefix of the shuffled copy. -/
lemma split_ratings_true_eq (shuffler : Entries K V → Entries K V)
    (ratings : Entries K V) (proportion : ℚ) :
    split_ratings shuffler ratings proportion true =
      ((shuffler ratings).take (proportion * (ratings.length : ℚ)).floor.toNat,
       (shuffler ratings).drop (proportion * (ratings.length : ℚ)).floor.toNat) := by
  show splitLoop _ 0 (shuffler ratings) = _
  rw [splitLoop_eq_take_drop, Nat.sub_zero]

/-- C6: with `shuffle=False` the first group is exactly the first
`⌊proportion * n⌋` entries in original insertion order and the second group is
the remaining entries in original order; their concatenation is the whole
input (so every key of the input appears, with its value), and under the
dict's key-uniqueness no key lands in both groups. -/
theorem split_ratings_no_shuffle (shuffler : Entries K V → Entries K V)
    (ratings : Entries K V) (proportion : ℚ)
    (h0 : 0 ≤ proportion) (h1 : proportion ≤ 1)
    (hnd : (ratings.map Prod.fst).Nodup) :
    split_ratings shuffler ratings proportion false =
      (ratings.take (proportion * (ratings.length : ℚ)).floor.toNat,
       ratings.drop (proportion * (ratings.length : ℚ)).floor.toNat) ∧
    (split_ratings shuffler ratings proportion false).1.length =
      (proportion * (ratings.length : ℚ)).floor.toNat ∧
    (split_ratings shuffler ratings proportion false).2.length =
      ratings.length - (proportion * (ratings.length : ℚ)).floor.toNat ∧
    (split_ratings shuffler ratings proportion false).1 ++
      (split_ratings shuffler ratings proportion false).2 = ratings ∧
    List.Disjoint ((split_ratings shuffler ratings proportion false).1.map Prod.fst)
      ((split_ratings shuffler ratings proportion false).2.map Prod.fst) := by
  have hsplit := split_ratings_false_eq shuffler ratings proportion
  have hk := floor_mul_le (p := proportion) ratings.length h1
  refine ⟨hsplit, ?_, ?_, ?_, ?_⟩
  · rw [hsplit]
    simpa using hk
  · rw [hsplit]
    simp
  · rw [hsplit]
    exact List.take_append_drop _ ratings
  · rw [hsplit]
    have hnd2 := hnd
    rw [← List.take_append_drop ((proportion * (ratings.length : ℚ)).floor.toNat)
      (ratings.map Prod.fst), List.nodup_append] at hnd2
    simpa [List.map_take, List.map_drop] using hnd2.2.2

/-- C10: for any proportion in `[0, 1]` and either value of `shuffle` (the
shuffled iterator being a permutation of the input entries), the two groups
have sizes `⌊proportion * n⌋` and `n - ⌊proportion * n⌋`, together they are a
permutation of the input entries (every input entry appears in exactly one
group, with its original value), and under the dict's key-uniqueness no key
lands in both groups. -/
theorem split_ratings_partition (shuffler : Entries K V → Entries K V)
    (ratings : Entries K V) (proportion : ℚ) (shuffle : Bool)
    (h0 : 0 ≤ proportion) (h1 : proportion ≤ 1)
    (hperm : (shuffler ratings).Perm ratings)
    (hnd : (ratings.map Prod.fst).Nodup) :
    (split_ratings shuffler ratings proportion shuffle).1.length =
      (proportion * (ratings.length : ℚ)).floor.toNat ∧
    (split_ratings shuffler ratings proportion shuffle).2.length =
      ratings.length - (proportion * (ratings.length : ℚ)).floor.toNat ∧
    ((split_ratings shuffler ratings proportion shuffle).1 ++
      (split_ratings shuffler ratings proportion shuffle).2).Perm ratings ∧
    List.Disjoint ((split_ratings shuffler ratings proportion shuffle).1.map Prod.fst)
      ((split_ratings shuffler ratings proportion shuffle).2.map Prod.fst) := by
  have hk := floor_mul_le (p := proportion) ratings.length h1
  cases shuffle with
  | false =>
    have h := split_ratings_no_shuffle shuffler ratings proportion h0 h1 hnd
    refine ⟨h.2.1, h.2.2.1, ?_, h.2.2.2.2⟩
    rw [h.2.2.2.1]
  | true =>
    have hsplit := split_ratings_true_eq shuffler ratings proportion
    have hlen : (shuffler ratings).length = ratings.length := hperm.length_eq
    have hndsh : ((shuffler ratings).map Prod.fst).Nodup :=
      ((hperm.map Prod.fst).symm).nodup hnd
    refine ⟨?_, ?_, ?_, ?_⟩
    · rw [hsplit]
      simp only [List.length_take, hlen]
      omega
    · rw [hsplit]
      simp only [List.length_drop, hlen]
    · rw [hsplit]
      rw [List.take_append_drop]
      exact hperm
    · rw [hsplit]
      have hnd2 := hndsh
      rw [← List.take_append_drop ((proportion * (ratings.length : ℚ)).floor.toNat)
        ((shuffler ratings).map Prod.fst), List.nodup_append] at hnd2
      simpa [List.map_take, List.map_drop] using hnd2.2.2

/-- C9: `split_ratings` never mutates its input — with either value of
`shuffle` the caller's dict holds the same entries, with the same values, in
the same order after the call, and the returned pair is the one the pure
function describes. -/
theorem split_ratings_input_unchanged (shuffler : Entries K V → Entries K V)
    (ratings : Entries K V) (proportion : ℚ) (shuffle : Bool) :
    (split_ratings_call shuffler ratings proportion shuffle).2 = ratings ∧
    (split_ratings_call shuffler ratings proportion shuffle).1 =
      split_ratings shuffler ratings proportion shuffle :=
  ⟨rfl, rfl⟩

/-- Ten concrete entries, in insertion order, with pairwise distinct keys. -/
def exampleRatings : Entries Nat Nat :=
  [(0, 10), (1, 11), (2, 12), (3, 13), (4, 14),
   (5, 15), (6, 16), (7, 17), (8, 18), (9, 19)]

/-- Witness for C6: on the 10-entry mapping with proportion `3/10` and
`shuffle=False` the groups have sizes 3 and 7 and concatenate back to the
input. -/
theorem split_ratings_no_shuffle_witness :
    ((0:ℚ) ≤ 3/10) ∧ ((3:ℚ)/10 ≤ 1) ∧
    (split_ratings id exampleRatings (3/10) false).1.length = 3 ∧
    (split_ratings id exampleRatings (3/10) false).2.length = 7 ∧
    (split_ratings id exampleRatings (3/10) false).1 ++
      (split_ratings id exampleRatings (3/10) false).2 = exampleRatings := by
  have h := split_ratings_no_shuffle id exampleRatings (3/10)
    (by norm_num) (by norm_num) (by decide)
  have hk : (((3:ℚ)/10) * (exampleRatings.length : ℚ)).floor.toNat = 3 := by
    norm_num [ratFloor_eq, exampleRatings]
    decide
  refine ⟨by norm_num, by norm_num, ?_, ?_, h.2.2.2.1⟩
  · rw [h.2.1, hk]
  · rw [h.2.2.1, hk]
    decide

/-- Four concrete entries, in insertion order, with pairwise distinct keys. -/
def exampleRatingsFour : Entries Nat Nat :=
  [(0, 10), (1, 11), (2, 12), (3, 13)]

/-- Witness for C10: on four entries with proportion `1/2` and `shuffle=True`
(the shuffle being a reversal, a permutation) the groups have sizes 2 and 2
and together are a permutation of the input. -/
theorem split_ratings_partition_witness :
    ((0:ℚ) ≤ 1/2) ∧ ((1:ℚ)/2 ≤ 1) ∧
    (exampleRatingsFour.reverse).Perm exampleRatingsFour ∧
    (split_ratings List.reverse exampleRatingsFour (1/2) true).1.length = 2 ∧
    (split_ratings List.reverse exampleRatingsFour (1/2) true).2.length = 2 ∧
    ((split_ratings List.reverse exampleRatingsFour (1/2) true).1 ++
      (split_ratings List.reverse exampleRatingsFour (1/2) true).2).Perm
        exampleRatingsFour := by
  have hp : (exampleRatingsFour.reverse).Perm exampleRatingsFour :=
    List.reverse_perm exampleRatingsFour
  have h := split_ratings_partition List.reverse exampleRatingsFour (1/2) true
    (by norm_num) (by norm_num) hp (by decide)
  have hk : (((1:ℚ)/2) * (exampleRatingsFour.length : ℚ)).floor.toNat = 2 := by
    norm_num [ratFloor_eq, exampleRatingsFour]
    decide
  refine ⟨by norm_num, by norm_num, hp, ?_, ?_, h.2.2.1⟩
  · rw [h.1, hk]
  · rw [h.2.1, hk]
    decide

end DataUtils

end RecLab
